import Mathlib

/-!
Shallow embedding of the `DiceBag` class from `hagadias/helpers.py`.

A `DiceBag` parses a dice string such as `"3d6+1-2d2"` into a list of
`Die` terms and offers `average`, `minimum`, `maximum` and `shake`.

Modelling decisions:
* Python strings are `List Char`; `\d` and `\s` are modelled over their
  ASCII meaning, which covers every input the specification discusses.
* Python `float` values produced here come from `float(<digit string>)`
  and arithmetic on them; within the exactly representable range these
  operations are exact, so floats are modelled as `ℚ` and Python's
  `int(...)` as truncation toward zero (`truncQ`).
* `re.match(pattern_valid_dice, s)` anchors at the start only, so it
  succeeds exactly when the first character of `s` is in the class.
* `pattern_dice_segment.finditer` yields the maximal runs of characters
  other than `+`/`-`, each together with the single sign character
  immediately preceding it (when there is one); `segsAux` implements
  this scan directly.
* `randrange(s)` succeeds exactly when `s ≥ 1` and then returns some
  value in `[0, s-1]`; `shake` therefore takes an oracle `g : ℕ → ℕ`
  for the stream of random draws (draw `k` yields `g k % s`) and
  returns `none` when `randrange` would raise.
-/

namespace DiceBag

/-- Structure `DiceBag.Die` from the source: one segment of a dice string, with the
float fields modelled as exact rationals. -/
structure Die where
  quantity : ℚ
  size : ℚ
deriving DecidableEq

/-- A character is a segment delimiter sign (`+` or `-`). -/
def isSign (c : Char) : Bool := c == '+' || c == '-'

/-- ASCII whitespace, the characters removed by `"".join(s.split())`. -/
def isSpaceChar (c : Char) : Bool :=
  c == ' ' || c == '\t' || c == '\n' || c == '\r' || c == '\x0b' || c == '\x0c'

/-- Membership in the character class `[\d\sd+-]` of `pattern_valid_dice`. -/
def isValidDiceChar (c : Char) : Bool :=
  c.isDigit || isSpaceChar c || c == 'd' || c == '+' || c == '-'

/-- Result of `pattern_valid_dice.match(s) is not None`: `re.match` anchors
at the start only, so `[\d\sd+-]+` matches iff the first character is in the
class. -/
def validStart : List Char → Bool
  | [] => false
  | c :: _ => isValidDiceChar c

/-- Effect of `"".join(dice_string.split())`: remove all whitespace. -/
def stripSpaces (l : List Char) : List Char := l.filter (fun c => !isSpaceChar c)

theorem length_dropWhile_le (p : Char → Bool) (l : List Char) :
    (l.dropWhile p).length ≤ l.length := by
  induction l with
  | nil => simp
  | cons a l ih =>
    rw [List.dropWhile_cons]
    split
    · exact Nat.le_succ_of_le ih
    · simp

/-- The list of matches of `pattern_dice_segment = [+-]?[^+-]+` found by
`finditer`: maximal runs of non-sign characters, each preceded by the one
sign character immediately before it when present.  A sign followed by
another sign (or by the end of the string) starts no match. -/
def segsAux : List Char → List (List Char)
  | [] => []
  | c :: rest =>
    if isSign c then
      match rest with
      | [] => []
      | c2 :: rest2 =>
        if isSign c2 then
          segsAux (c2 :: rest2)
        else
          (c :: c2 :: rest2.takeWhile (fun x => !isSign x)) ::
            segsAux (rest2.dropWhile (fun x => !isSign x))
    else
      (c :: rest.takeWhile (fun x => !isSign x)) ::
        segsAux (rest.dropWhile (fun x => !isSign x))
termination_by l => l.length
decreasing_by
  · simp
  · exact Nat.lt_succ_of_le (Nat.le_succ_of_le (length_dropWhile_le _ _))
  · exact Nat.lt_succ_of_le (length_dropWhile_le _ _)

/-- One-pass scan computing the same matches as `segsAux`, structurally
recursive so that it evaluates by kernel reduction: `cur` is the current
candidate match, reversed.  On a sign character the current match is
emitted (when it has at least one non-sign character, as `[+-]?[^+-]+`
demands) and the sign starts the next candidate; a candidate consisting
of a lone sign is discarded, exactly as `finditer` skips a sign that is
not followed by a non-sign character. -/
def segsGo (cur : List Char) : List Char → List (List Char)
  | [] => if cur.any (fun x => !isSign x) then [cur.reverse] else []
  | c :: rest =>
    if isSign c then
      if cur.any (fun x => !isSign x) then cur.reverse :: segsGo [c] rest
      else segsGo [c] rest
    else segsGo (c :: cur) rest

/-- The segment list of a cleaned dice string (see `segs_eq_segsAux`). -/
def segs (l : List Char) : List (List Char) := segsGo [] l

/-- The numeric value of a nonempty all-digit run (`\d+`); `none` if the
run is empty or contains a non-digit. -/
def parseDigitsAux : List Char → ℕ → Option ℕ
  | [], acc => some acc
  | c :: rest, acc =>
    if c.isDigit then parseDigitsAux rest (acc * 10 + (c.toNat - '0'.toNat))
    else none

/-- Pattern `\d+` (one or more digits) matched against the whole list. -/
def parseDigits : List Char → Option ℕ
  | [] => none
  | c :: rest => parseDigitsAux (c :: rest) 0

/-- Pattern `[+-]?\d+` matched against the whole list, as Python
`float(m.group(1))` reads it (exact in the rational model, so an `ℤ`). -/
def signedInt : List Char → Option ℤ
  | [] => none
  | c :: rest =>
    if c == '+' then (parseDigits rest).map (fun n => (n : ℤ))
    else if c == '-' then (parseDigits rest).map (fun n => -(n : ℤ))
    else (parseDigits (c :: rest)).map (fun n => (n : ℤ))

/-- Pattern `pattern_die_roll = ^([+-]?\d+)d(\d+)$`: since group 1 cannot contain
`d`, the match, when it exists, splits the segment at its first `d`. -/
def matchDieRoll (l : List Char) : Option (ℤ × ℕ) :=
  match l.dropWhile (fun c => !(c == 'd')) with
  | [] => none
  | c :: rest =>
    if c == 'd' then
      match signedInt (l.takeWhile (fun c => !(c == 'd'))), parseDigits rest with
      | some q, some n => some (q, n)
      | _, _ => none
    else none

/-- Classification of one segment in `DiceBag.__init__`: first
`pattern_die_roll` (a `Die` with the parsed quantity and size), then
`pattern_die_bonus` (a `Die` with size `1.0`), else no match. -/
def classifySeg (seg : List Char) : Option Die :=
  match matchDieRoll seg with
  | some (q, n) => some ⟨(q : ℚ), (n : ℚ)⟩
  | none =>
    match signedInt seg with
    | some q => some ⟨(q : ℚ), 1⟩
    | none => none

/-- The two `ValueError`s `DiceBag.__init__` can raise. -/
inductive ParseError
  | invalidChars
  | badSegment (seg : List Char)
deriving DecidableEq

instance {ε α : Type} [DecidableEq ε] [DecidableEq α] : DecidableEq (Except ε α)
  | .error e, .error f =>
    if h : e = f then isTrue (h ▸ rfl) else isFalse (fun hh => h (by cases hh; rfl))
  | .error _, .ok _ => isFalse (fun hh => Except.noConfusion hh)
  | .ok _, .error _ => isFalse (fun hh => Except.noConfusion hh)
  | .ok a, .ok b =>
    if h : a = b then isTrue (h ▸ rfl) else isFalse (fun hh => h (by cases hh; rfl))

/-- The segment loop of `DiceBag.__init__`: append the `Die` for each
segment, raising at the first segment of unsupported format. -/
def buildBag : List (List Char) → Except ParseError (List Die)
  | [] => .ok []
  | seg :: rest =>
    match classifySeg seg with
    | some d =>
      match buildBag rest with
      | .ok bag => .ok (d :: bag)
      | .error e => .error e
    | none => .error (.badSegment seg)

/-- Constructor `DiceBag.__init__`: character-class check, whitespace stripping,
segmentation, and classification of every segment. -/
def parseDiceBag (l : List Char) : Except ParseError (List Die) :=
  if validStart l then buildBag (segs (stripSpaces l))
  else .error .invalidChars

/-- Python `int(...)` on a rational value: truncation toward zero. -/
def truncQ (q : ℚ) : ℤ := if 0 ≤ q then ⌊q⌋ else ⌈q⌉

/-- The exact sum accumulated by `DiceBag.average` before the final
`int(...)`. -/
def averageVal : List Die → ℚ
  | [] => 0
  | d :: rest => d.quantity * (1 + d.size) / 2 + averageVal rest

/-- Method `DiceBag.average`. -/
def average (bag : List Die) : ℤ := truncQ (averageVal bag)

/-- The exact sum accumulated by `DiceBag.minimum` before the final
`int(...)`. -/
def minVal : List Die → ℚ
  | [] => 0
  | d :: rest =>
    (if 0 ≤ d.quantity then d.quantity * 1 else d.quantity * d.size) + minVal rest

/-- Method `DiceBag.minimum`. -/
def minimum (bag : List Die) : ℤ := truncQ (minVal bag)

/-- The exact sum accumulated by `DiceBag.maximum` before the final
`int(...)`. -/
def maxVal : List Die → ℚ
  | [] => 0
  | d :: rest =>
    (if 0 ≤ d.quantity then d.quantity * d.size else d.quantity * 1) + maxVal rest

/-- Method `DiceBag.maximum`. -/
def maximum (bag : List Die) : ℤ := truncQ (maxVal bag)

/-- The sum of `n` draws of `randrange(s) + 1`, reading draws
`k, k+1, ...` from the oracle `g`; `none` when `randrange(s)` would
raise, i.e. when a draw is requested with `s ≤ 0`. -/
def rollDice (g : ℕ → ℕ) : ℕ → ℕ → ℤ → Option ℤ
  | _, 0, _ => some 0
  | k, n + 1, s =>
    if s ≤ 0 then none
    else (rollDice g (k + 1) n s).map (fun r => ((g k % s.toNat : ℕ) : ℤ) + 1 + r)

/-- The loop of `DiceBag.shake`, threading the oracle position. -/
def shakeAux (g : ℕ → ℕ) : ℕ → List Die → Option ℤ
  | _, [] => some 0
  | k, d :: rest =>
    let q := truncQ d.quantity
    let s := truncQ d.size
    if 0 < q then
      match rollDice g k q.toNat s with
      | some r => (shakeAux g (k + q.toNat) rest).map (fun v => r + v)
      | none => none
    else if q < 0 then
      match rollDice g k (-q).toNat s with
      | some r => (shakeAux g (k + (-q).toNat) rest).map (fun v => v - r)
      | none => none
    else shakeAux g k rest

/-- Method `DiceBag.shake`, with the random draws supplied by the oracle `g`. -/
def shake (g : ℕ → ℕ) (bag : List Die) : Option ℤ := shakeAux g 0 bag

/-! ### General lemmas about the embedding -/

theorem truncQ_intCast (k : ℤ) : truncQ ((k : ℚ)) = k := by
  unfold truncQ
  split
  · exact Int.floor_intCast k
  · exact Int.ceil_intCast k

theorem truncQ_mono {x y : ℚ} (h : x ≤ y) : truncQ x ≤ truncQ y := by
  unfold truncQ
  split <;> split
  · exact Int.floor_le_floor h
  · rename_i hx hy
    exact absurd (le_trans hx h) hy
  · rename_i hx hy
    have h1 : ⌈x⌉ ≤ (0 : ℤ) := Int.ceil_le.mpr (by push_cast; linarith [le_of_not_le hx])
    have h2 : (0 : ℤ) ≤ ⌊y⌋ := Int.le_floor.mpr (by push_cast; exact hy)
    exact le_trans h1 h2
  · exact Int.ceil_le_ceil h

theorem parseDigitsAux_isDigit {l : List Char} {acc n : ℕ}
    (h : parseDigitsAux l acc = some n) : ∀ c ∈ l, c.isDigit = true := by
  induction l generalizing acc with
  | nil => intro c hc; cases hc
  | cons a l ih =>
    simp only [parseDigitsAux] at h
    split at h
    · intro c hc
      rcases List.mem_cons.mp hc with rfl | hc
      · assumption
      · exact ih h c hc
    · cases h

theorem parseDigits_isDigit {l : List Char} {n : ℕ} (h : parseDigits l = some n) :
    ∀ c ∈ l, c.isDigit = true := by
  cases l with
  | nil => intro c hc; cases hc
  | cons a l => exact parseDigitsAux_isDigit h

theorem parseDigits_ne_nil {l : List Char} {n : ℕ} (h : parseDigits l = some n) :
    l ≠ [] := by
  intro he
  subst he
  simp [parseDigits] at h

theorem signedInt_chars {l : List Char} {q : ℤ} (h : signedInt l = some q) :
    ∀ c ∈ l, isSign c = true ∨ c.isDigit = true := by
  cases l with
  | nil => intro c hc; cases hc
  | cons a rest =>
    intro c hc
    simp only [signedInt] at h
    split at h
    · rename_i ha
      rcases List.mem_cons.mp hc with rfl | hc
      · left
        simp only [isSign, ha, Bool.true_or]
      · cases hp : parseDigits rest with
        | none => rw [hp] at h; cases h
        | some m => right; exact parseDigits_isDigit hp c hc
    · split at h
      · rename_i ha
        rcases List.mem_cons.mp hc with rfl | hc
        · left
          simp only [isSign, ha, Bool.or_true]
        · cases hp : parseDigits rest with
          | none => rw [hp] at h; cases h
          | some m => right; exact parseDigits_isDigit hp c hc
      · cases hp : parseDigits (a :: rest) with
        | none => rw [hp] at h; cases h
        | some m => right; exact parseDigits_isDigit hp c hc

theorem matchDieRoll_eq {l : List Char} {q : ℤ} {n : ℕ}
    (h : matchDieRoll l = some (q, n)) :
    signedInt (l.takeWhile (fun c => !(c == 'd'))) = some q ∧
    ∃ rest, l.dropWhile (fun c => !(c == 'd')) = 'd' :: rest ∧
      parseDigits rest = some n := by
  unfold matchDieRoll at h
  split at h
  · cases h
  · rename_i c rest heq
    split at h
    · rename_i hc
      cases hq : signedInt (l.takeWhile (fun c => !(c == 'd'))) with
      | none => rw [hq] at h; simp at h
      | some q0 =>
        cases hn : parseDigits rest with
        | none => rw [hq, hn] at h; simp at h
        | some n0 =>
          rw [hq, hn] at h
          simp only [Option.some.injEq, Prod.mk.injEq] at h
          obtain ⟨rfl, rfl⟩ := h
          refine ⟨rfl, rest, ?_, hn⟩
          rw [heq]
          congr 1
          exact (beq_iff_eq.mp hc)
    · cases h

theorem classifySeg_cases {seg : List Char} {d : Die}
    (h : classifySeg seg = some d) :
    (∃ q n, matchDieRoll seg = some (q, n) ∧ d = ⟨(q : ℚ), (n : ℚ)⟩) ∨
    (matchDieRoll seg = none ∧ ∃ q, signedInt seg = some q ∧ d = ⟨(q : ℚ), 1⟩) := by
  unfold classifySeg at h
  cases hm : matchDieRoll seg with
  | some p =>
    rw [hm] at h
    left
    refine ⟨p.1, p.2, rfl, ?_⟩
    simp only [Option.some.injEq] at h
    exact h.symm
  | none =>
    rw [hm] at h
    right
    cases hs : signedInt seg with
    | none => rw [hs] at h; cases h
    | some q =>
      rw [hs] at h
      simp only [Option.some.injEq] at h
      exact ⟨rfl, q, rfl, h.symm⟩

theorem classifySeg_int {seg : List Char} {d : Die} (h : classifySeg seg = some d) :
    (∃ k : ℤ, d.quantity = (k : ℚ)) ∧ (∃ n : ℕ, d.size = (n : ℚ)) := by
  rcases classifySeg_cases h with ⟨q, n, _, rfl⟩ | ⟨_, q, _, rfl⟩
  · exact ⟨⟨q, rfl⟩, ⟨n, rfl⟩⟩
  · exact ⟨⟨q, rfl⟩, ⟨1, by norm_num⟩⟩

theorem buildBag_mem {ss : List (List Char)} {bag : List Die}
    (h : buildBag ss = .ok bag) :
    ∀ d ∈ bag, ∃ seg ∈ ss, classifySeg seg = some d := by
  induction ss generalizing bag with
  | nil =>
    simp only [buildBag, Except.ok.injEq] at h
    subst h
    intro d hd
    cases hd
  | cons seg rest ih =>
    simp only [buildBag] at h
    cases hc : classifySeg seg with
    | none => rw [hc] at h; cases h
    | some d0 =>
      rw [hc] at h
      cases hb : buildBag rest with
      | error e => rw [hb] at h; cases h
      | ok bag0 =>
        rw [hb] at h
        simp only [Except.ok.injEq] at h
        subst h
        intro d hd
        rcases List.mem_cons.mp hd with rfl | hd
        · exact ⟨seg, List.mem_cons_self _ _, hc⟩
        · rcases ih hb d hd with ⟨s, hs, hcs⟩
          exact ⟨s, List.mem_cons_of_mem _ hs, hcs⟩

theorem parseDiceBag_ok {l : List Char} {bag : List Die}
    (h : parseDiceBag l = .ok bag) :
    validStart l = true ∧ buildBag (segs (stripSpaces l)) = .ok bag := by
  unfold parseDiceBag at h
  split at h
  · rename_i hv
    exact ⟨hv, h⟩
  · cases h

theorem parse_terms_int {l : List Char} {bag : List Die}
    (h : parseDiceBag l = .ok bag) :
    ∀ d ∈ bag, (∃ k : ℤ, d.quantity = (k : ℚ)) ∧ (∃ n : ℕ, d.size = (n : ℚ)) := by
  intro d hd
  rcases buildBag_mem (parseDiceBag_ok h).2 d hd with ⟨seg, _, hc⟩
  exact classifySeg_int hc

theorem segsGo_cover {c : Char} (hs : isSign c = false) :
    ∀ (l cur : List Char), c ∈ cur ∨ c ∈ l →
      ∃ seg ∈ segsGo cur l, c ∈ seg := by
  intro l
  induction l with
  | nil =>
    intro cur hc
    rcases hc with hc | hc
    · have hany : cur.any (fun x => !isSign x) = true :=
        List.any_eq_true.mpr ⟨c, hc, by simp [hs]⟩
      refine ⟨cur.reverse, ?_, ?_⟩
      · simp [segsGo, hany]
      · simpa using hc
    · cases hc
  | cons a rest ih =>
    intro cur hc
    by_cases ha : isSign a = true
    · have hc' : c ∈ cur ∨ c ∈ rest := by
        rcases hc with hc | hc
        · exact .inl hc
        · rcases List.mem_cons.mp hc with rfl | hc
          · rw [ha] at hs; cases hs
          · exact .inr hc
      by_cases hany : cur.any (fun x => !isSign x) = true
      · rcases hc' with hcur | hrest
        · refine ⟨cur.reverse, ?_, ?_⟩
          · simp [segsGo, ha, hany]
          · simpa using hcur
        · rcases ih [a] (.inr hrest) with ⟨seg, hseg, hcseg⟩
          refine ⟨seg, ?_, hcseg⟩
          simp only [segsGo, ha, if_true, hany]
          exact List.mem_cons_of_mem _ hseg
      · rcases hc' with hcur | hrest
        · exact absurd (List.any_eq_true.mpr ⟨c, hcur, by simp [hs]⟩) hany
        · rcases ih [a] (.inr hrest) with ⟨seg, hseg, hcseg⟩
          refine ⟨seg, ?_, hcseg⟩
          simpa [segsGo, ha, hany] using hseg
    · have hc' : c ∈ (a :: cur) ∨ c ∈ rest := by
        rcases hc with hc | hc
        · exact .inl (List.mem_cons_of_mem _ hc)
        · rcases List.mem_cons.mp hc with rfl | hc
          · exact .inl (List.mem_cons_self _ _)
          · exact .inr hc
      rcases ih (a :: cur) hc' with ⟨seg, hseg, hcseg⟩
      refine ⟨seg, ?_, hcseg⟩
      simpa [segsGo, ha] using hseg

theorem buildBag_ok_nonempty {seg : List Char} {ss : List (List Char)}
    {bag : List Die} (h : buildBag (seg :: ss) = .ok bag) : bag ≠ [] := by
  simp only [buildBag] at h
  cases hc : classifySeg seg with
  | none => rw [hc] at h; cases h
  | some d =>
    rw [hc] at h
    cases hb : buildBag ss with
    | error e => rw [hb] at h; cases h
    | ok bag0 =>
      rw [hb] at h
      simp only [Except.ok.injEq] at h
      subst h
      simp

/-! ### Claims -/

/-- C1 (amended): for every accepted input, every term's `sides` is a
nonnegative integer — die-roll segments store the parsed (possibly zero)
value and constant segments store `1` — but `sides ≥ 1` does not hold in
general. -/
theorem claim1_sides_natural {l : List Char} {bag : List Die}
    (h : parseDiceBag l = .ok bag) :
    ∀ d ∈ bag, 0 ≤ d.size ∧ ∃ n : ℕ, d.size = (n : ℚ) := by
  intro d hd
  rcases (parse_terms_int h d hd).2 with ⟨n, hn⟩
  refine ⟨?_, n, hn⟩
  rw [hn]
  exact Nat.cast_nonneg n

/-- C1 counterexample: the constructor accepts `"1d0"` and produces a term
whose `sides` is `0`, violating `sides ≥ 1`. -/
theorem claim1_cex :
    parseDiceBag "1d0".data = .ok [⟨1, 0⟩] ∧ ¬ (1 ≤ (Die.mk 1 0).size) := by
  decide

/-- C1 witness: instantiation of `claim1_sides_natural` at `"2d3"`. -/
theorem claim1_witness :
    parseDiceBag "2d3".data = .ok [⟨2, 3⟩] ∧
    (0 ≤ (Die.mk 2 3).size ∧ ∃ n : ℕ, (Die.mk 2 3).size = (n : ℚ)) :=
  ⟨by decide, @claim1_sides_natural "2d3".data [⟨2, 3⟩] (by decide) ⟨2, 3⟩ (by decide)⟩

/-- C6 counterexample: `"1--2"` has an empty segment between the two signs,
yet the constructor succeeds instead of failing. -/
theorem claim6_cex : parseDiceBag "1--2".data = .ok [⟨1, 1⟩, ⟨-2, 1⟩] := by
  decide

/-- C6 (amended): a segment that is empty after its leading sign is
silently dropped and construction succeeds: `"1--2"` parses as the terms
`(1, 1), (-2, 1)` and `"2d6+"` parses as `(2, 6)`. -/
theorem claim6_empty_segment_dropped :
    parseDiceBag "1--2".data = .ok [⟨1, 1⟩, ⟨-2, 1⟩] ∧
    parseDiceBag "2d6+".data = .ok [⟨2, 6⟩] := by
  decide

/-- C7 counterexample: the constructor accepts `"+-"` and produces an
empty term sequence. -/
theorem claim7_cex : parseDiceBag "+-".data = .ok ([] : List Die) := by
  decide

/-- C7 (amended): the term sequence of an accepted string is non-empty
provided the whitespace-stripped input contains at least one character
that is not `+` or `-`; an accepted input consisting of signs and spaces
only yields an empty sequence. -/
theorem claim7_nonempty {l : List Char} {bag : List Die}
    (h : parseDiceBag l = .ok bag) {c : Char}
    (hc : c ∈ stripSpaces l) (hs : isSign c = false) : bag ≠ [] := by
  obtain ⟨_, hb⟩ := parseDiceBag_ok h
  rcases segsGo_cover hs (stripSpaces l) [] (.inr hc) with ⟨seg, hseg, _⟩
  cases hss : segs (stripSpaces l) with
  | nil =>
    rw [show segsGo [] (stripSpaces l) = segs (stripSpaces l) from rfl, hss] at hseg
    cases hseg
  | cons s ss =>
    rw [hss] at hb
    exact buildBag_ok_nonempty hb

/-- C7 witness: instantiation of `claim7_nonempty` at `"17"`. -/
theorem claim7_witness :
    parseDiceBag "17".data = .ok [⟨17, 1⟩] ∧ ([⟨17, 1⟩] : List Die) ≠ [] :=
  ⟨by decide, @claim7_nonempty "17".data [⟨17, 1⟩] (by decide) '1' (by decide) (by decide)⟩

/-- C8: `"3d6+1-2d2"` parses into the terms `(3,6), (1,1), (-2,2)` with
`minimum = 0`, `maximum = 17`, exact average sum `17/2 = 8.5`, truncated
once at the end to `average = 8`. -/
theorem claim8_mixed_example :
    parseDiceBag "3d6+1-2d2".data = .ok [⟨3, 6⟩, ⟨1, 1⟩, ⟨-2, 2⟩] ∧
    minimum [⟨3, 6⟩, ⟨1, 1⟩, ⟨-2, 2⟩] = 0 ∧
    maximum [⟨3, 6⟩, ⟨1, 1⟩, ⟨-2, 2⟩] = 17 ∧
    averageVal [⟨3, 6⟩, ⟨1, 1⟩, ⟨-2, 2⟩] = 17 / 2 ∧
    average [⟨3, 6⟩, ⟨1, 1⟩, ⟨-2, 2⟩] = 8 := by
  refine ⟨by decide, ?_, ?_, ?_, ?_⟩
  · norm_num [minimum, minVal, truncQ]
  · norm_num [maximum, maxVal, truncQ]
  · norm_num [averageVal]
  · norm_num [average, averageVal, truncQ]

/-- C10: every accepted term's `quantity` and `size`, although held in the
(rational-modelled) float representation, are exactly integer-valued, so
the `int(...)` coercions in `shake` leave them unchanged. -/
theorem claim10_int_valued {l : List Char} {bag : List Die}
    (h : parseDiceBag l = .ok bag) :
    ∀ d ∈ bag, (∃ k : ℤ, d.quantity = (k : ℚ)) ∧ (∃ n : ℕ, d.size = (n : ℚ)) ∧
      ((truncQ d.quantity : ℚ) = d.quantity ∧ (truncQ d.size : ℚ) = d.size) := by
  intro d hd
  obtain ⟨⟨k, hk⟩, ⟨n, hn⟩⟩ := parse_terms_int h d hd
  refine ⟨⟨k, hk⟩, ⟨n, hn⟩, ?_, ?_⟩
  · rw [hk, truncQ_intCast]
  · rw [hn, show ((n : ℚ)) = ((n : ℤ) : ℚ) by push_cast; rfl, truncQ_intCast]

/-- C10 witness: instantiation of `claim10_int_valued` at `"17"`. -/
theorem claim10_witness :
    parseDiceBag "17".data = .ok [⟨17, 1⟩] ∧
    ((∃ k : ℤ, (Die.mk 17 1).quantity = (k : ℚ)) ∧
     (∃ n : ℕ, (Die.mk 17 1).size = (n : ℚ)) ∧
     ((truncQ (Die.mk 17 1).quantity : ℚ) = (Die.mk 17 1).quantity ∧
      (truncQ (Die.mk 17 1).size : ℚ) = (Die.mk 17 1).size)) :=
  ⟨by decide, @claim10_int_valued "17".data [⟨17, 1⟩] (by decide) ⟨17, 1⟩ (by decide)⟩

theorem rollDice_ones (g : ℕ → ℕ) : ∀ n k, rollDice g k n 1 = some (n : ℤ) := by
  intro n
  induction n with
  | zero => intro k; rfl
  | succ m ih =>
    intro k
    rw [rollDice, if_neg (by norm_num), ih (k + 1)]
    simp only [Option.map_some']
    congr 1
    have : g k % (1 : ℤ).toNat = 0 := Nat.mod_one _
    rw [this]
    push_cast
    ring

/-- C9: `"17"` parses to the single constant term `(17, 1)`; `average`,
`minimum` and `maximum` all return `17`, and `shake` returns `17` for
every outcome of the random draws. -/
theorem claim9_constant :
    parseDiceBag "17".data = .ok [⟨17, 1⟩] ∧
    average [⟨17, 1⟩] = 17 ∧ minimum [⟨17, 1⟩] = 17 ∧ maximum [⟨17, 1⟩] = 17 ∧
    ∀ g : ℕ → ℕ, shake g [⟨17, 1⟩] = some 17 := by
  refine ⟨by decide, ?_, ?_, ?_, ?_⟩
  · norm_num [average, averageVal, truncQ]
  · norm_num [minimum, minVal, truncQ]
  · norm_num [maximum, maxVal, truncQ]
  intro g
  have h17 : truncQ ((17 : ℚ)) = 17 := by
    rw [show ((17 : ℚ)) = ((17 : ℤ) : ℚ) by norm_num, truncQ_intCast]
  have h1 : truncQ ((1 : ℚ)) = 1 := by
    rw [show ((1 : ℚ)) = ((1 : ℤ) : ℚ) by norm_num, truncQ_intCast]
  show shakeAux g 0 [⟨17, 1⟩] = some 17
  rw [shakeAux]
  simp only [h17, h1]
  rw [if_pos (by norm_num)]
  rw [show (17 : ℤ).toNat = 17 from rfl, rollDice_ones g 17 0]
  rw [shakeAux]
  simp

/-- C9 witness: `claim9_constant` instantiated at a concrete oracle. -/
theorem claim9_witness : shake (fun _ => 0) [⟨17, 1⟩] = some 17 :=
  claim9_constant.2.2.2.2 (fun _ => 0)

theorem minVal_le_averageVal {bag : List Die} (h : ∀ d ∈ bag, 1 ≤ d.size) :
    minVal bag ≤ averageVal bag := by
  induction bag with
  | nil => simp [minVal, averageVal]
  | cons d rest ih =>
    have hd : 1 ≤ d.size := h d (List.mem_cons_self _ _)
    have hrest := ih (fun x hx => h x (List.mem_cons_of_mem _ hx))
    simp only [minVal, averageVal]
    refine add_le_add ?_ hrest
    rw [le_div_iff₀ (by norm_num : (0 : ℚ) < 2)]
    split
    · rename_i hq
      nlinarith [mul_nonneg hq (sub_nonneg.mpr hd)]
    · rename_i hq
      push_neg at hq
      nlinarith [mul_nonneg (neg_nonneg.mpr (le_of_lt hq)) (sub_nonneg.mpr hd)]

theorem averageVal_le_maxVal {bag : List Die} (h : ∀ d ∈ bag, 1 ≤ d.size) :
    averageVal bag ≤ maxVal bag := by
  induction bag with
  | nil => simp [averageVal, maxVal]
  | cons d rest ih =>
    have hd : 1 ≤ d.size := h d (List.mem_cons_self _ _)
    have hrest := ih (fun x hx => h x (List.mem_cons_of_mem _ hx))
    simp only [averageVal, maxVal]
    refine add_le_add ?_ hrest
    rw [div_le_iff₀ (by norm_num : (0 : ℚ) < 2)]
    split
    · rename_i hq
      nlinarith [mul_nonneg hq (sub_nonneg.mpr hd)]
    · rename_i hq
      push_neg at hq
      nlinarith [mul_nonneg (neg_nonneg.mpr (le_of_lt hq)) (sub_nonneg.mpr hd)]

/-- C2 (amended): for every accepted input whose terms all have
`sides ≥ 1`, `minimum ≤ average` and `average ≤ maximum`; when a die-roll
segment has `sides = 0` both inequalities can fail. -/
theorem claim2_avg_between {l : List Char} {bag : List Die}
    (h : parseDiceBag l = .ok bag) (hs : ∀ d ∈ bag, 1 ≤ d.size) :
    minimum bag ≤ average bag ∧ average bag ≤ maximum bag :=
  ⟨truncQ_mono (minVal_le_averageVal hs), truncQ_mono (averageVal_le_maxVal hs)⟩

/-- C2 counterexample: `"1d0"` is accepted, but its minimum is `1` while
its average is `0`, so `minimum ≤ average` fails. -/
theorem claim2_cex :
    parseDiceBag "1d0".data = .ok [⟨1, 0⟩] ∧
    ¬ (minimum [⟨1, 0⟩] ≤ average [⟨1, 0⟩] ∧
       average [⟨1, 0⟩] ≤ maximum [⟨1, 0⟩]) := by
  refine ⟨by decide, ?_⟩
  have hm : minimum [(⟨1, 0⟩ : Die)] = 1 := by norm_num [minimum, minVal, truncQ]
  have ha : average [(⟨1, 0⟩ : Die)] = 0 := by norm_num [average, averageVal, truncQ]
  rw [hm, ha]
  intro hcon
  exact absurd hcon.1 (by norm_num)

/-- C2 witness: instantiation of `claim2_avg_between` at `"1d4"`. -/
theorem claim2_witness :
    minimum [(⟨1, 4⟩ : Die)] ≤ average [⟨1, 4⟩] ∧
    average [(⟨1, 4⟩ : Die)] ≤ maximum [⟨1, 4⟩] :=
  @claim2_avg_between "1d4".data [⟨1, 4⟩] (by decide) (by decide)

theorem truncQ_one : truncQ ((1 : ℚ)) = 1 := by
  rw [show ((1 : ℚ)) = ((1 : ℤ) : ℚ) by norm_num, truncQ_intCast]

theorem truncQ_zero : truncQ ((0 : ℚ)) = 0 := by
  rw [show ((0 : ℚ)) = ((0 : ℤ) : ℚ) by norm_num, truncQ_intCast]

theorem rollDice_total (g : ℕ → ℕ) {s : ℤ} (hs : 0 < s) :
    ∀ n k, ∃ r, rollDice g k n s = some r := by
  intro n
  induction n with
  | zero => intro k; exact ⟨0, rfl⟩
  | succ m ih =>
    intro k
    obtain ⟨r, hr⟩ := ih (k + 1)
    exact ⟨_, by rw [rollDice, if_neg (by omega), hr]; rfl⟩

theorem shakeAux_total (g : ℕ → ℕ) {bag : List Die}
    (h : ∀ d ∈ bag, d.quantity = 0 ∨ 1 ≤ d.size) :
    ∀ k, ∃ v, shakeAux g k bag = some v := by
  induction bag with
  | nil => intro k; exact ⟨0, rfl⟩
  | cons d rest ih =>
    intro k
    have hd := h d (List.mem_cons_self _ _)
    have hrest := ih (fun x hx => h x (List.mem_cons_of_mem _ hx))
    rcases hd with hq0 | hs1
    · have ht : truncQ d.quantity = 0 := by rw [hq0, truncQ_zero]
      obtain ⟨v, hv⟩ := hrest k
      refine ⟨v, ?_⟩
      rw [shakeAux]
      simp only [ht]
      rw [if_neg (by norm_num), if_neg (by norm_num)]
      exact hv
    · have hspos : 0 < truncQ d.size := by
        have h1 : truncQ ((1 : ℚ)) ≤ truncQ d.size := truncQ_mono hs1
        rw [truncQ_one] at h1
        omega
      by_cases hq : 0 < truncQ d.quantity
      · obtain ⟨r, hr⟩ := rollDice_total g hspos (truncQ d.quantity).toNat k
        obtain ⟨v, hv⟩ := hrest (k + (truncQ d.quantity).toNat)
        refine ⟨r + v, ?_⟩
        rw [shakeAux]
        rw [if_pos hq, hr, hv]
        rfl
      · by_cases hq2 : truncQ d.quantity < 0
        · obtain ⟨r, hr⟩ := rollDice_total g hspos (-truncQ d.quantity).toNat k
          obtain ⟨v, hv⟩ := hrest (k + (-truncQ d.quantity).toNat)
          refine ⟨v - r, ?_⟩
          rw [shakeAux]
          rw [if_neg hq, if_pos hq2, hr, hv]
          rfl
        · obtain ⟨v, hv⟩ := hrest k
          refine ⟨v, ?_⟩
          rw [shakeAux]
          rw [if_neg hq, if_neg hq2]
          exact hv

/-- C3 (amended): `average`, `minimum` and `maximum` are total functions of
the parsed bag, and `shake` succeeds for every random outcome provided
every term is a constant or has `sides ≥ 1`; a die-roll term with
`sides = 0` and nonzero quantity makes `shake` raise. -/
theorem claim3_eval_total {l : List Char} {bag : List Die}
    (h : parseDiceBag l = .ok bag)
    (hs : ∀ d ∈ bag, d.quantity = 0 ∨ 1 ≤ d.size) (g : ℕ → ℕ) :
    ∃ v, shake g bag = some v :=
  shakeAux_total g hs 0

/-- C3 counterexample: `"1d0"` is accepted by the constructor, yet `shake`
fails on the resulting bag (Python's `randrange(0)` raises `ValueError`). -/
theorem claim3_cex :
    parseDiceBag "1d0".data = .ok [⟨1, 0⟩] ∧
    shake (fun _ => 0) [⟨1, 0⟩] = none := by
  decide

/-- C3 witness: instantiation of `claim3_eval_total` at `"1d4"`. -/
theorem claim3_witness : ∃ v, shake (fun _ => 0) [(⟨1, 4⟩ : Die)] = some v :=
  @claim3_eval_total "1d4".data [⟨1, 4⟩] (by decide) (by decide) (fun _ => 0)

theorem rollDice_bounds (g : ℕ → ℕ) {s : ℤ} :
    ∀ {n : ℕ} {k : ℕ} {r : ℤ}, rollDice g k n s = some r →
      (n : ℤ) ≤ r ∧ r ≤ (n : ℤ) * s := by
  intro n
  induction n with
  | zero =>
    intro k r h
    simp only [rollDice, Option.some.injEq] at h
    subst h
    simp
  | succ m ih =>
    intro k r h
    rw [rollDice] at h
    split at h
    · cases h
    · rename_i hsle
      cases hr : rollDice g (k + 1) m s with
      | none => rw [hr] at h; cases h
      | some r0 =>
        rw [hr] at h
        simp only [Option.map_some', Option.some.injEq] at h
        subst h
        obtain ⟨h1, h2⟩ := ih hr
        have hts : ((s.toNat : ℤ)) = s := Int.toNat_of_nonneg (by omega)
        have hpos : 0 < s.toNat := by omega
        have hlt : ((g k % s.toNat : ℕ) : ℤ) < (s.toNat : ℤ) := by
          exact_mod_cast Nat.mod_lt _ hpos
        have hge : (0 : ℤ) ≤ ((g k % s.toNat : ℕ) : ℤ) := Int.natCast_nonneg _
        constructor
        · push_cast
          omega
        · have hsum : ((m : ℤ) + 1) * s = (m : ℤ) * s + s := by ring
          have hd : ((g k % s.toNat : ℕ) : ℤ) + 1 ≤ s := by omega
          rw [Nat.cast_succ]
          linarith [h1, h2, hd, hsum]

theorem shakeAux_bounds (g : ℕ → ℕ) {bag : List Die}
    (hint : ∀ d ∈ bag, (∃ k : ℤ, d.quantity = (k : ℚ)) ∧ (∃ n : ℕ, d.size = (n : ℚ))) :
    ∀ {k : ℕ} {v : ℤ}, shakeAux g k bag = some v →
      minVal bag ≤ (v : ℚ) ∧ (v : ℚ) ≤ maxVal bag := by
  induction bag with
  | nil =>
    intro k v h
    simp only [shakeAux, Option.some.injEq] at h
    subst h
    simp [minVal, maxVal]
  | cons d rest ih =>
    intro k v h
    obtain ⟨⟨kk, hq⟩, ⟨n, hs⟩⟩ := hint d (List.mem_cons_self _ _)
    have hint' := fun x hx => hint x (List.mem_cons_of_mem _ hx)
    have htq : truncQ d.quantity = kk := by rw [hq, truncQ_intCast]
    have hts : truncQ d.size = (n : ℤ) := by
      rw [hs, show ((n : ℚ)) = ((n : ℤ) : ℚ) by push_cast; rfl, truncQ_intCast]
    rw [shakeAux, htq, hts] at h
    by_cases h1 : 0 < kk
    · rw [if_pos h1] at h
      cases hr : rollDice g k kk.toNat ((n : ℕ) : ℤ) with
      | none => rw [hr] at h; cases h
      | some r =>
        rw [hr] at h
        cases hv0 : shakeAux g (k + kk.toNat) rest with
        | none => rw [hv0] at h; cases h
        | some v0 =>
          rw [hv0] at h
          simp only [Option.map_some', Option.some.injEq] at h
          subst h
          obtain ⟨hminr, hmaxr⟩ := ih hint' hv0
          obtain ⟨hr1, hr2⟩ := rollDice_bounds g hr
          have hkk : ((kk.toNat : ℤ)) = kk := Int.toNat_of_nonneg (by omega)
          rw [hkk] at hr1 hr2
          have hr1q : (kk : ℚ) ≤ ((r : ℤ) : ℚ) := by exact_mod_cast hr1
          have hr2q : ((r : ℤ) : ℚ) ≤ (kk : ℚ) * ((n : ℕ) : ℚ) := by exact_mod_cast hr2
          constructor
          · simp only [minVal]
            rw [if_pos (by rw [hq]; exact_mod_cast le_of_lt h1), hq]
            push_cast
            linarith [hminr]
          · simp only [maxVal]
            rw [if_pos (by rw [hq]; exact_mod_cast le_of_lt h1), hq, hs]
            push_cast at hr2q ⊢
            linarith [hmaxr]
    · by_cases h2 : kk < 0
      · rw [if_neg h1, if_pos h2] at h
        cases hr : rollDice g k (-kk).toNat ((n : ℕ) : ℤ) with
        | none => rw [hr] at h; cases h
        | some r =>
          rw [hr] at h
          cases hv0 : shakeAux g (k + (-kk).toNat) rest with
          | none => rw [hv0] at h; cases h
          | some v0 =>
            rw [hv0] at h
            simp only [Option.map_some', Option.some.injEq] at h
            subst h
            obtain ⟨hminr, hmaxr⟩ := ih hint' hv0
            obtain ⟨hr1, hr2⟩ := rollDice_bounds g hr
            have hkk : (((-kk).toNat : ℤ)) = -kk := Int.toNat_of_nonneg (by omega)
            rw [hkk] at hr1 hr2
            have hr1q : (-kk : ℚ) ≤ ((r : ℤ) : ℚ) := by exact_mod_cast hr1
            have hr2q : ((r : ℤ) : ℚ) ≤ (-kk : ℚ) * ((n : ℕ) : ℚ) := by
              exact_mod_cast hr2
            have hqneg : ¬ (0 : ℚ) ≤ d.quantity := by
              rw [hq]
              exact_mod_cast not_le.mpr h2
            constructor
            · simp only [minVal]
              rw [if_neg hqneg, hq, hs]
              push_cast at hr2q ⊢
              linarith [hminr]
            · simp only [maxVal]
              rw [if_neg hqneg, hq]
              push_cast at hr1q ⊢
              linarith [hmaxr]
      · have hkk0 : kk = 0 := by omega
        rw [if_neg h1, if_neg h2] at h
        obtain ⟨hminr, hmaxr⟩ := ih hint' h
        subst hkk0
        constructor
        · simp only [minVal]
          rw [if_pos (by rw [hq]; norm_num), hq]
          push_cast
          linarith [hminr]
        · simp only [maxVal]
          rw [if_pos (by rw [hq]; norm_num), hq]
          push_cast
          linarith [hmaxr]

/-- C4: for every accepted input and every outcome of the random draws on
which `shake` returns a value, that value lies in
`[minimum, maximum]`. -/
theorem claim4_shake_in_range {l : List Char} {bag : List Die}
    (h : parseDiceBag l = .ok bag) {g : ℕ → ℕ} {v : ℤ}
    (hv : shake g bag = some v) :
    minimum bag ≤ v ∧ v ≤ maximum bag := by
  obtain ⟨h1, h2⟩ := shakeAux_bounds g (parse_terms_int h) hv
  constructor
  · have hm := truncQ_mono h1
    rwa [truncQ_intCast] at hm
  · have hm := truncQ_mono h2
    rwa [truncQ_intCast] at hm

/-- C4 witness: instantiation of `claim4_shake_in_range` at `"2d3"` with
the all-zero oracle, whose roll is `2`. -/
theorem claim4_witness :
    shake (fun _ => 0) [(⟨2, 3⟩ : Die)] = some 2 ∧
    minimum [(⟨2, 3⟩ : Die)] ≤ 2 ∧ (2 : ℤ) ≤ maximum [(⟨2, 3⟩ : Die)] :=
  ⟨by decide, @claim4_shake_in_range "2d3".data [⟨2, 3⟩] (by decide)
    (fun _ => 0) 2 (by decide)⟩

theorem isValidDiceChar_of_sign {c : Char} (h : isSign c = true) :
    isValidDiceChar c = true := by
  simp only [isSign, Bool.or_eq_true] at h
  unfold isValidDiceChar
  rcases h with h | h <;> simp [h]

theorem isValidDiceChar_false_parts {c : Char} (hv : isValidDiceChar c = false) :
    c.isDigit = false ∧ isSpaceChar c = false ∧ (c == 'd') = false ∧
    (c == '+') = false ∧ (c == '-') = false := by
  unfold isValidDiceChar at hv
  simp only [Bool.or_eq_false_iff] at hv
  exact ⟨hv.1.1.1.1, hv.1.1.1.2, hv.1.1.2, hv.1.2, hv.2⟩

theorem isValidDiceChar_of_digit {c : Char} (h : c.isDigit = true) :
    isValidDiceChar c = true := by
  unfold isValidDiceChar
  simp [h]

theorem classifySeg_valid {seg : List Char} {d : Die}
    (h : classifySeg seg = some d) : ∀ c ∈ seg, isValidDiceChar c = true := by
  intro c hc
  rcases classifySeg_cases h with ⟨q, n, hm, _⟩ | ⟨_, q, hsi, _⟩
  · obtain ⟨hsi, rest, hdrop, hpd⟩ := matchDieRoll_eq hm
    have hsplit : seg.takeWhile (fun c => !(c == 'd')) ++ ('d' :: rest) = seg := by
      rw [← hdrop]
      exact List.takeWhile_append_dropWhile _ _
    have hc' : c ∈ seg.takeWhile (fun c => !(c == 'd')) ∨ c ∈ ('d' :: rest) := by
      rw [← hsplit] at hc
      exact List.mem_append.mp hc
    rcases hc' with hpre | hpost
    · rcases signedInt_chars hsi c hpre with hsg | hdg
      · exact isValidDiceChar_of_sign hsg
      · exact isValidDiceChar_of_digit hdg
    · rcases List.mem_cons.mp hpost with rfl | hrest
      · decide
      · exact isValidDiceChar_of_digit (parseDigits_isDigit hpd c hrest)
  · rcases signedInt_chars hsi c hc with hsg | hdg
    · exact isValidDiceChar_of_sign hsg
    · exact isValidDiceChar_of_digit hdg

theorem buildBag_error_of_bad {ss : List (List Char)} {seg : List Char}
    (hseg : seg ∈ ss) (hbad : classifySeg seg = none) :
    ∃ s2, buildBag ss = .error (.badSegment s2) := by
  induction ss with
  | nil => cases hseg
  | cons s rest ih =>
    rcases List.mem_cons.mp hseg with rfl | hmem
    · exact ⟨seg, by simp [buildBag, hbad]⟩
    · cases hc : classifySeg s with
      | none => exact ⟨s, by simp [buildBag, hc]⟩
      | some d =>
        obtain ⟨s2, hs2⟩ := ih hmem
        exact ⟨s2, by simp [buildBag, hc, hs2]⟩

/-- C5 (amended): every input containing a character outside the class
`[0-9, space, +, -, d]` is rejected, but `re.match` only anchors the
character-class check at the start of the string: the invalid-characters
diagnostic is produced only when the first character is itself outside
the class; otherwise the failure carries the unsupported-segment
diagnostic. -/
theorem claim5_invalid_char_fails {l : List Char} {c : Char}
    (hc : c ∈ l) (hv : isValidDiceChar c = false) :
    parseDiceBag l = .error .invalidChars ∨
    ∃ seg, parseDiceBag l = .error (.badSegment seg) := by
  by_cases hp : validStart l = true
  · right
    obtain ⟨_, hnotspace, _, hplus, hminus⟩ := isValidDiceChar_false_parts hv
    have hcs : c ∈ stripSpaces l := by
      unfold stripSpaces
      exact List.mem_filter.mpr ⟨hc, by rw [hnotspace]; rfl⟩
    have hsgn : isSign c = false := by
      unfold isSign
      rw [hplus, hminus]
      rfl
    rcases segsGo_cover hsgn (stripSpaces l) [] (.inr hcs) with ⟨seg, hseg, hcseg⟩
    have hbad : classifySeg seg = none := by
      cases hcl : classifySeg seg with
      | none => rfl
      | some d =>
        have := classifySeg_valid hcl c hcseg
        rw [hv] at this
        cases this
    obtain ⟨s2, hs2⟩ := buildBag_error_of_bad hseg hbad
    refine ⟨s2, ?_⟩
    unfold parseDiceBag
    rw [if_pos hp]
    exact hs2
  · left
    unfold parseDiceBag
    rw [if_neg hp]

/-- C5 counterexample: `"2x6"` fails, but with the unsupported-segment
diagnostic rather than the invalid-characters one, because the prefix
`"2"` already satisfies the anchored character-class match. -/
theorem claim5_cex :
    parseDiceBag "2x6".data = .error (.badSegment "2x6".data) ∧
    parseDiceBag "2x6".data ≠ .error .invalidChars := by
  decide

/-- C5 witness: instantiation of `claim5_invalid_char_fails` at `"2x6"`
and the character `x`. -/
theorem claim5_witness :
    parseDiceBag "2x6".data = .error .invalidChars ∨
    ∃ seg, parseDiceBag "2x6".data = .error (.badSegment seg) :=
  @claim5_invalid_char_fails "2x6".data 'x' (by decide) (by decide)

theorem segsGo_run {cur : List Char} (hcur : cur.any (fun x => !isSign x) = true) :
    ∀ xs, segsGo cur xs =
      (cur.reverse ++ xs.takeWhile (fun x => !isSign x)) ::
        segsGo [] (xs.dropWhile (fun x => !isSign x)) := by
  intro xs
  induction xs generalizing cur with
  | nil => simp [segsGo, hcur]
  | cons x xs ih =>
    by_cases hx : isSign x = true
    · have htake : (x :: xs).takeWhile (fun x => !isSign x) = [] := by
        simp [List.takeWhile_cons, hx]
      have hdrop : (x :: xs).dropWhile (fun x => !isSign x) = x :: xs := by
        simp [List.dropWhile_cons, hx]
      rw [htake, hdrop]
      have hgo : segsGo [] (x :: xs) = segsGo [x] xs := by
        simp [segsGo, hx]
      rw [hgo]
      simp [segsGo, hx, hcur]
    · have hcur' : (x :: cur).any (fun x => !isSign x) = true := by
        simp [List.any_cons, hx]
      have hlhs : segsGo cur (x :: xs) = segsGo (x :: cur) xs := by
        simp [segsGo, hx]
      rw [hlhs, ih hcur']
      have htake : (x :: xs).takeWhile (fun x => !isSign x) =
          x :: xs.takeWhile (fun x => !isSign x) := by
        simp [List.takeWhile_cons, hx]
      have hdrop : (x :: xs).dropWhile (fun x => !isSign x) =
          xs.dropWhile (fun x => !isSign x) := by
        simp [List.dropWhile_cons, hx]
      rw [htake, hdrop]
      simp

/-- The structural scan `segs` computes exactly the matches of the direct
translation `segsAux` of `finditer` over `[+-]?[^+-]+`. -/
theorem segs_eq_segsAux : ∀ l : List Char, segs l = segsAux l := by
  intro l
  induction l using segsAux.induct with
  | case1 =>
    rw [segsAux.eq_def]
    simp [segs, segsGo]
  | case2 c hc =>
    rw [segsAux.eq_def]
    simp [segs, segsGo, hc]
  | case3 c hc c2 rest2 hc2 ih =>
    rw [segsAux.eq_def]
    simp only [hc, hc2, if_true]
    rw [← ih]
    simp [segs, segsGo, hc, hc2]
  | case4 c hc c2 rest2 hc2 ih =>
    rw [segsAux.eq_def]
    simp only [hc, if_true]
    rw [if_neg hc2, ← ih]
    have h1 : segsGo [] (c :: c2 :: rest2) = segsGo [c] (c2 :: rest2) := by
      simp [segsGo, hc]
    have h2 : segsGo [c] (c2 :: rest2) = segsGo [c2, c] rest2 := by
      simp [segsGo, hc2]
    have h3 : ([c2, c] : List Char).any (fun x => !isSign x) = true := by
      simp [List.any_cons, hc2]
    show segsGo [] (c :: c2 :: rest2) = _
    rw [h1, h2, segsGo_run h3 rest2]
    simp [segs]
  | case5 c rest hc ih =>
    rw [segsAux.eq_def]
    simp only [hc, if_false]
    rw [← ih]
    have h1 : segsGo [] (c :: rest) = segsGo [c] rest := by
      simp [segsGo, hc]
    have h3 : ([c] : List Char).any (fun x => !isSign x) = true := by
      simp [List.any_cons, hc]
    show segsGo [] (c :: rest) = _
    rw [h1, segsGo_run h3 rest]
    simp [segs]

end DiceBag
